import Mathlib

/-!
Verification of the guess-resolution core of the war-thunder-guesser
repository, against its specification.

Strings are modelled as `List Char`.  The relevant JavaScript string
primitives (`toLowerCase`, `split`, `replace`, `trim`, …) act on the
ASCII range in every input the game handles; they are embedded
character-by-character below.  Machine integers of the seeded PRNG are
modelled as `Nat` with explicit reduction `% 2 ^ 32` wherever the source
truncates to 32 bits (`Math.imul`, `>>> 0`, `^`, `|`).

The embedded functions follow, with their source file:
  * `normalize`, `tokenize`, `levenshtein`, `isFuzzyMatch`,
    `isTokenMatch`, `getCountryPrefix`, `formatName`, `generateAliases`
    from the string-utilities module (src/unnamed/part_003);
  * `checkGuessMatch`, `checkGuess` from the game component
    (src/unnamed/part_002);
  * `SeededRandom` (FNV-1a seeding + Mulberry32 step) and the seeded
    selection of `fetchMysteryVehicle` from src/services/apiService.ts.

`edist`, `EditStep` and `EditChain` are the specification-side notion of
edit distance ("minimum number of single-character insertions, deletions
and substitutions"), used to state the refinement claim about
`levenshtein`.
-/

namespace WTG

/-- The character list of a string literal (strings are modelled as `List Char`). -/
def chars (s : String) : List Char := s.data

/-- JavaScript `toLowerCase`, restricted to its action on ASCII letters. -/
def jsToLower (c : Char) : Char :=
  match c with
  | 'A' => 'a' | 'B' => 'b' | 'C' => 'c' | 'D' => 'd' | 'E' => 'e' | 'F' => 'f'
  | 'G' => 'g' | 'H' => 'h' | 'I' => 'i' | 'J' => 'j' | 'K' => 'k' | 'L' => 'l'
  | 'M' => 'm' | 'N' => 'n' | 'O' => 'o' | 'P' => 'p' | 'Q' => 'q' | 'R' => 'r'
  | 'S' => 's' | 'T' => 't' | 'U' => 'u' | 'V' => 'v' | 'W' => 'w' | 'X' => 'x'
  | 'Y' => 'y' | 'Z' => 'z'
  | c => c

/-- JavaScript `toUpperCase`, restricted to its action on ASCII letters. -/
def jsToUpper (c : Char) : Char :=
  match c with
  | 'a' => 'A' | 'b' => 'B' | 'c' => 'C' | 'd' => 'D' | 'e' => 'E' | 'f' => 'F'
  | 'g' => 'G' | 'h' => 'H' | 'i' => 'I' | 'j' => 'J' | 'k' => 'K' | 'l' => 'L'
  | 'm' => 'M' | 'n' => 'N' | 'o' => 'O' | 'p' => 'P' | 'q' => 'Q' | 'r' => 'R'
  | 's' => 'S' | 't' => 'T' | 'u' => 'U' | 'v' => 'V' | 'w' => 'W' | 'x' => 'X'
  | 'y' => 'Y' | 'z' => 'Z'
  | c => c

/-- `toLowerCase` on a whole string. -/
def toLowerStr (s : List Char) : List Char := s.map jsToLower

/-- `toUpperCase` on a whole string. -/
def toUpperStr (s : List Char) : List Char := s.map jsToUpper

/-- The whitespace class `\s` of the source's regular expressions
(ASCII whitespace and the no-break space). -/
def isSpaceJS (c : Char) : Bool :=
  c == ' ' || c == '\t' || c == '\n' || c == '\r' || c == '\x0b' || c == '\x0c' || c == '\xa0'

/-- The separator class `[\s\-_/()]` used by `normalize` and `tokenize`. -/
def isSepChar (c : Char) : Bool :=
  isSpaceJS c || c == '-' || c == '_' || c == '/' || c == '(' || c == ')'

/-- The digit class `\d` = `[0-9]`. -/
def isDigitCh (c : Char) : Bool := decide ('0' ≤ c ∧ c ≤ '9')

/-- The letter class `[A-Za-z]`. -/
def isAsciiAlpha (c : Char) : Bool :=
  decide (('a' ≤ c ∧ c ≤ 'z') ∨ ('A' ≤ c ∧ c ≤ 'Z'))

/-- The class `[a-z0-9]` kept by `normalize`'s final `replace(/[^a-z0-9]/g, '')`. -/
def isLowerAlnum (c : Char) : Bool :=
  decide (('a' ≤ c ∧ c ≤ 'z') ∨ ('0' ≤ c ∧ c ≤ '9'))

/-- `ROMAN_TO_ARABIC` of src/constants.ts. -/
def ROMAN_TO_ARABIC : List (List Char × List Char) :=
  [(chars "i", chars "1"), (chars "ii", chars "2"), (chars "iii", chars "3"),
   (chars "iv", chars "4"), (chars "v", chars "5"), (chars "vi", chars "6"),
   (chars "vii", chars "7"), (chars "viii", chars "8"), (chars "ix", chars "9"),
   (chars "x", chars "10")]

/-- `ROMAN_TO_ARABIC[part] ?? part`. -/
def romanSub (part : List Char) : List Char :=
  (List.lookup part ROMAN_TO_ARABIC).getD part

/-- `COUNTRY_PREFIXES` of src/constants.ts. -/
def COUNTRY_PREFIXES : List (List Char × List Char) :=
  [(chars "usa", chars "us"), (chars "germany", chars "germ"),
   (chars "ussr", chars "ussr"), (chars "britain", chars "uk"),
   (chars "japan", chars "jp"), (chars "china", chars "cn"),
   (chars "italy", chars "it"), (chars "france", chars "fr"),
   (chars "sweden", chars "sw"), (chars "israel", chars "il")]

/-- `FORCE_UPPERCASE` of src/constants.ts. -/
def FORCE_UPPERCASE : List (List Char) :=
  [chars "df", chars "cm", chars "pt", chars "bk", chars "is", chars "kv",
   chars "cv", chars "pv", chars "ikv", chars "strv", chars "lvkv", chars "pbv",
   chars "pvkv", chars "sav", chars "amx", chars "amd", chars "aml", chars "ztz",
   chars "zsd", chars "zbd", chars "pgz", chars "bmd", chars "bmp", chars "btr",
   chars "asus", chars "m1", chars "m2", chars "m3", chars "m4", chars "m60",
   chars "t54", chars "t55", chars "t62", chars "t64", chars "t72", chars "t80",
   chars "t90"]

/-- Maximal runs of separator / non-separator characters.  A JavaScript
`split(/([\s\-_/()]+)/)` keeps the separator runs as segments and may add
empty boundary pieces; joining the mapped segments with `''` is the same
as mapping over these maximal runs and concatenating, since the empty
pieces and the separator runs are never keys of `ROMAN_TO_ARABIC`. -/
def runs : List Char → List (List Char)
  | [] => []
  | c :: cs => match runs cs with
    | [] => [[c]]
    | [] :: rest => [c] :: rest
    | (d :: r) :: rest =>
      if isSepChar c = isSepChar d then (c :: d :: r) :: rest else [c] :: (d :: r) :: rest

/-- `normalize` of the string utilities (src/unnamed/part_003, lines 8-18). -/
def normalize (str : List Char) (convertRoman : Bool) : List Char :=
  let processed := toLowerStr str
  let processed :=
    if convertRoman then ((runs processed).map romanSub).flatten else processed
  processed.filter isLowerAlnum

/-- `tokenize` (src/unnamed/part_003, lines 23-31): split on separator runs,
drop empty tokens, optionally map roman numerals. -/
def tokenize (str : List Char) (convertRoman : Bool) : List (List Char) :=
  let tokens := (runs (toLowerStr str)).filter fun r =>
    match r with
    | [] => false
    | c :: _ => !(isSepChar c)
  if convertRoman then tokens.map romanSub else tokens

/-- One row of the Levenshtein dynamic-programming matrix:
`levRow a b i prev j` is `matrix[i+1][j]` when `prev` is `matrix[i] [.]`. -/
def levRow (a b : List Char) (i : Nat) (prev : Nat → Nat) : Nat → Nat
  | 0 => i + 1
  | j + 1 =>
    if b.getD i ' ' = a.getD j ' ' then prev j
    else min (prev j + 1) (min (levRow a b i prev j + 1) (prev (j + 1) + 1))

/-- The full matrix of `levenshtein` (src/unnamed/part_003, lines 36-62):
`levMatrix a b i j` is `matrix[i][j]`, rows indexed by `b`, columns by `a`. -/
def levMatrix (a b : List Char) : Nat → Nat → Nat
  | 0 => fun j => j
  | i + 1 => levRow a b i (levMatrix a b i)

/-- `levenshtein` of the source: the corner `matrix[b.length][a.length]`. -/
def levenshtein (a b : List Char) : Nat := levMatrix a b b.length a.length

/-- `isFuzzyMatch` (src/unnamed/part_003, lines 67-80). -/
def isFuzzyMatch (input target : List Char) (convertRoman : Bool) : Bool :=
  let nInput := normalize input convertRoman
  let nTarget := normalize target convertRoman
  if nInput = nTarget then true
  else
    let dist := levenshtein nInput nTarget
    let maxLength := max nInput.length nTarget.length
    if 6 < maxLength ∧ dist ≤ 2 then true
    else if 3 < maxLength ∧ dist ≤ 1 then true
    else false

/-- `isTokenMatch` (src/unnamed/part_003, lines 85-92). -/
def isTokenMatch (tokensA tokensB : List (List Char)) : Bool :=
  if tokensA.length = 0 || tokensB.length = 0 then false
  else
    (tokensA.all fun token => tokensB.contains token) ||
    (tokensB.all fun token => tokensA.contains token)

/-- `getCountryPrefix` (src/unnamed/part_003, lines 97-99). -/
def getCountryPrefix (country : List Char) : List Char :=
  (List.lookup (toLowerStr country) COUNTRY_PREFIXES).getD (toLowerStr country)

/-- JavaScript `split(sep)` for a single-character separator: keeps empty
pieces, always returns at least one piece. -/
def splitOnChar (sep : Char) : List Char → List (List Char)
  | [] => [[]]
  | c :: cs =>
    if c = sep then [] :: splitOnChar sep cs
    else match splitOnChar sep cs with
      | [] => [[c]]
      | p :: ps => (c :: p) :: ps

/-- JavaScript `join(sep)` for a single-character separator. -/
def joinSep (sep : Char) : List (List Char) → List Char
  | [] => []
  | [w] => w
  | w :: ws => w ++ sep :: joinSep sep ws

/-- `s.replace(pat, '')` for a plain-string pattern: remove the first
occurrence (no change when there is none). -/
def removeFirstOcc (pat : List Char) : List Char → List Char
  | [] => []
  | c :: cs =>
    if pat.isPrefixOf (c :: cs) then (c :: cs).drop pat.length
    else c :: removeFirstOcc pat cs

/-- `s.replace(pat, repl)` for a plain-string pattern: replace the first
occurrence (no change when there is none). -/
def replaceFirstOcc (pat repl : List Char) : List Char → List Char
  | [] => []
  | c :: cs =>
    if pat.isPrefixOf (c :: cs) then repl ++ (c :: cs).drop pat.length
    else c :: replaceFirstOcc pat repl cs

/-- `s.includes(pat)`. -/
def containsStr : List Char → List Char → Bool
  | [], pat => pat.isEmpty
  | c :: cs, pat => pat.isPrefixOf (c :: cs) || containsStr cs pat

/-- The full matches of the roman-numeral pattern
`/^(x|ix|iv|v?i{1,3}|v)$/i`, lowercased. -/
def ROMAN_WORDS : List (List Char) :=
  [chars "x", chars "ix", chars "iv", chars "i", chars "ii", chars "iii",
   chars "vi", chars "vii", chars "viii", chars "v"]

/-- The per-word transformation inside `formatName`
(src/unnamed/part_003, lines 119-140). -/
def processWord (word : List Char) : List Char :=
  let lower := toLowerStr word
  if lower = chars "us" then chars "US"
  else if lower = chars "kwk" then chars "KwK"
  else if lower = chars "flak" then chars "FlaK"
  else if lower = chars "pak" then chars "PaK"
  else if FORCE_UPPERCASE.contains lower then toUpperStr lower
  else if word.any isDigitCh then toUpperStr word
  else if ROMAN_WORDS.contains lower then toUpperStr word
  else if word.length = 1 then toUpperStr word
  else
    match word with
    | [] => []
    | c :: cs => jsToUpper c :: cs

/-- The global replace `([A-Za-z]) (\d)` → `$1-$2`: left-to-right,
non-overlapping, the scan resumes after each match. -/
def hyphenLetterDigit : List Char → List Char
  | a :: s :: b :: rest =>
    if isAsciiAlpha a && s == ' ' && isDigitCh b then
      a :: '-' :: b :: hyphenLetterDigit rest
    else a :: hyphenLetterDigit (s :: b :: rest)
  | l => l

/-- The global replace `(\d)-(\d)` → `$1-$2` (it rewrites each match to
itself; kept for faithfulness to the source). -/
def hyphenDigitDash : List Char → List Char
  | a :: s :: b :: rest =>
    if isDigitCh a && s == '-' && isDigitCh b then
      a :: '-' :: b :: hyphenDigitDash rest
    else a :: hyphenDigitDash (s :: b :: rest)
  | l => l

/-- The global replace `(\d) (\d)` → `$1-$2`. -/
def hyphenDigitDigit : List Char → List Char
  | a :: s :: b :: rest =>
    if isDigitCh a && s == ' ' && isDigitCh b then
      a :: '-' :: b :: hyphenDigitDigit rest
    else a :: hyphenDigitDigit (s :: b :: rest)
  | l => l

/-- `formatName` (src/unnamed/part_003, lines 104-148). -/
def formatName (id country : List Char) : List Char :=
  let name := toLowerStr id
  let pfx := getCountryPrefix country
  let name :=
    if (pfx ++ ['_']).isPrefixOf name then name.drop (pfx.length + 1)
    else if ((toLowerStr country) ++ ['_']).isPrefixOf name then
      removeFirstOcc ((toLowerStr country) ++ ['_']) name
    else name
  let name := name.map fun c => if c = '_' then ' ' else c
  let name := joinSep ' ' ((splitOnChar ' ' name).map processWord)
  hyphenDigitDigit (hyphenDigitDash (hyphenLetterDigit name))

/-- First-occurrence deduplication: the contents of a JavaScript `Set`
(`Array.from` returns elements in insertion order, an element is kept at
its first insertion). -/
def dedupFirst : List (List Char) → List (List Char)
  | [] => []
  | a :: rest => a :: (dedupFirst rest).filter fun b => !(b == a)

/-- The values added to the alias `Set` by `generateAliases`
(src/unnamed/part_003, lines 153-187), in insertion order. -/
def aliasCandidates (name id : List Char) : List (List Char) :=
  let cleanId := (toLowerStr id).map fun c => if c = '_' then ' ' else c
  let parts := splitOnChar '_' id
  let nameParts := splitOnChar ' ' name
  [toLowerStr name, cleanId]
  ++ (if 1 < parts.length then
        [toLowerStr (joinSep ' ' parts.tail), toLowerStr parts.tail.flatten]
      else [])
  ++ [(toLowerStr name).map fun c => if c = '-' then ' ' else c,
      (toLowerStr name).filter fun c => !(c == '-'),
      (toLowerStr name).filter fun c => !(isSpaceJS c)]
  ++ (if 1 < nameParts.length then [toLowerStr (nameParts.headD [])] else [])
  ++ (if containsStr (toLowerStr name) (chars "pzkpfw") then
        [replaceFirstOcc (chars "pzkpfw") (chars "panzer") (toLowerStr name)]
      else [])

/-- `generateAliases`: the candidate values, first occurrences kept. -/
def generateAliases (name id : List Char) : List (List Char) :=
  dedupFirst (aliasCandidates name id)

/-- `checkGuessMatch` of the game component (src/unnamed/part_002,
lines 710-734): direct fuzzy match on the name, then token match, then
both checks against each alias. -/
def checkGuessMatch (valueToCheck vehicleName : List Char)
    (vehicleAliases : List (List Char)) (convertRoman : Bool) : Bool :=
  if isFuzzyMatch valueToCheck vehicleName convertRoman then true
  else if isTokenMatch (tokenize valueToCheck convertRoman)
      (tokenize vehicleName convertRoman) then true
  else vehicleAliases.any fun al =>
    isFuzzyMatch valueToCheck al convertRoman ||
    isTokenMatch (tokenize valueToCheck convertRoman) (tokenize al convertRoman)

/-- JavaScript `trim()`. -/
def trim (s : List Char) : List Char :=
  ((s.dropWhile isSpaceJS).reverse.dropWhile isSpaceJS).reverse

/-- What one call of `checkGuess` reports to its caller. -/
inductive GuessOutcome where
  /-- The guard `if (!valueToCheck.trim())` fired: no judging happened. -/
  | rejectedEmpty : GuessOutcome
  /-- `onGameOver(true, attempts)`. -/
  | win (attemptsUsed : Nat) : GuessOutcome
  /-- `onGameOver(false, nextAttempts)`. -/
  | loss (attemptsUsed : Nat) : GuessOutcome
  /-- Incorrect, another attempt remains: `setAttempts(nextAttempts)`. -/
  | nextHint (attempts : Nat) : GuessOutcome
deriving DecidableEq, Repr

/-- `checkGuess` (src/unnamed/part_002, lines 776-818), as a function of
the submitted text and the `attempts` state; the second component is the
value of the `attempts` counter after the call. -/
def checkGuess (valueToCheck : List Char) (attempts maxAttempts : Nat)
    (vehicleName : List Char) (vehicleAliases : List (List Char))
    (convertRoman : Bool) : GuessOutcome × Nat :=
  if (trim valueToCheck).isEmpty then (.rejectedEmpty, attempts)
  else if checkGuessMatch valueToCheck vehicleName vehicleAliases convertRoman then
    (.win attempts, attempts)
  else
    let nextAttempts := attempts + 1
    if maxAttempts ≤ nextAttempts then (.loss nextAttempts, attempts)
    else (.nextHint nextAttempts, nextAttempts)

/-- `2 ^ 32`, the modulus of every 32-bit truncation in `SeededRandom`. -/
def U32 : Nat := 4294967296

/-- The `SeededRandom` constructor (src/services/apiService.ts, lines
32-40): FNV-1a over the seed string's UTF-16 code units (`Char.toNat`
for the basic-plane text the game uses as seeds). -/
def fnv1a (seedStr : List Char) : Nat :=
  seedStr.foldl (fun h c => ((h ^^^ c.toNat) * 0x01000193) % U32) 0x811c9dc5

/-- One `next()` call of `SeededRandom` (Mulberry32, lines 43-48): from a
32-bit state, the new state and the 32-bit numerator `t` of the returned
draw `t / 2^32 ∈ [0, 1)`. -/
def mulberry32 (state : Nat) : Nat × Nat :=
  let s := (state + 0x6D2B79F5) % U32
  let t1 := ((s ^^^ (s >>> 15)) * (s ||| 1)) % U32
  let t2 := t1 ^^^ ((t1 + ((t1 ^^^ (t1 >>> 7)) * (t1 ||| 61)) % U32) % U32)
  (s, (t2 ^^^ (t2 >>> 14)) % U32)

/-- The PRNG state after `n` calls of `next()` on `new SeededRandom(seedStr)`. -/
def seedState (seedStr : List Char) : Nat → Nat
  | 0 => fnv1a seedStr
  | n + 1 => (mulberry32 (seedState seedStr n)).1

/-- The numerator of the `n`-th draw (0-based) of `new SeededRandom(seedStr)`. -/
def draw (seedStr : List Char) (n : Nat) : Nat :=
  (mulberry32 (seedState seedStr n)).2

/-- A record of the local vehicle dataset.  Only `id` and `country` take
part in the claims; the payload fields (`rank`, `br`, `type`, …) do not
influence the seeded selection and are not modelled. -/
structure LocalVehicle where
  id : List Char
  country : List Char
deriving DecidableEq, Repr

/-- The `Map`-based deduplication of `fetchMysteryVehicle`
(src/services/apiService.ts, lines 79-85): first occurrence of each id
wins, insertion order kept. -/
def dedupById : List LocalVehicle → List LocalVehicle
  | [] => []
  | v :: rest => v :: (dedupById rest).filter fun w => !(w.id == v.id)

/-- The seeded selection of `fetchMysteryVehicle`
(src/services/apiService.ts, lines 64-102): deduplicate, then pick index
`floor(next() * length)`, i.e. `draw * length / 2^32` (exact for the
dataset sizes at hand, whose product stays below `2^53`). -/
def fetchMysteryVehicle (seed : List Char) (vehicles : List LocalVehicle) :
    Option LocalVehicle :=
  let uniqueVehicles := dedupById vehicles
  uniqueVehicles.get? (draw seed 0 * uniqueVehicles.length / U32)

/-- Specification-side reference: one single-character edit. -/
inductive EditStep : List Char → List Char → Prop where
  /-- Insert `c` between `pre` and `post`. -/
  | insert (pre post : List Char) (c : Char) : EditStep (pre ++ post) (pre ++ c :: post)
  /-- Delete the `c` between `pre` and `post`. -/
  | delete (pre post : List Char) (c : Char) : EditStep (pre ++ c :: post) (pre ++ post)
  /-- Substitute `c` by a different character `d`. -/
  | subst (pre post : List Char) (c d : Char) (h : c ≠ d) :
      EditStep (pre ++ c :: post) (pre ++ d :: post)

/-- Specification-side reference: `EditChain n a b` holds when `a` can be
transformed into `b` by `n` single-character edits. -/
inductive EditChain : Nat → List Char → List Char → Prop where
  /-- No edits. -/
  | refl (l : List Char) : EditChain 0 l l
  /-- One edit, then a chain. -/
  | step {n : Nat} {a b c : List Char} (h : EditStep a b) (t : EditChain n b c) :
      EditChain (n + 1) a c

/-- Specification-side reference: the textbook recursive edit distance. -/
def edistAux (x : Char) (f : List Char → Nat) : List Char → Nat
  | [] => f [] + 1
  | y :: ys =>
    if x = y then f ys
    else 1 + min (f ys) (min (edistAux x f ys) (f (y :: ys)))

/-- Specification-side reference: the textbook recursive edit distance
(`edist (x :: xs) ys = edistAux x (edist xs) ys`). -/
def edist : List Char → List Char → Nat
  | [] => fun ys => ys.length
  | x :: xs => edistAux x (edist xs)

/-! ### Helper lemmas -/

theorem jsToUpper_jsToLower (c : Char) : jsToUpper (jsToLower c) = jsToUpper c := by
  unfold jsToLower
  split <;> rfl

theorem isDigitCh_jsToLower (c : Char) : isDigitCh (jsToLower c) = isDigitCh c := by
  unfold jsToLower
  split <;> rfl

theorem isSpaceJS_jsToLower (c : Char) : isSpaceJS (jsToLower c) = isSpaceJS c := by
  unfold jsToLower
  split <;> rfl

theorem jsToLower_eq_self_of_isLowerAlnum (c : Char) (h : isLowerAlnum c = true) :
    jsToLower c = c := by
  unfold jsToLower
  split <;> simp_all [isLowerAlnum]

theorem jsToLower_ne_dash (c : Char) (h : c ≠ '-') : jsToLower c ≠ '-' := by
  unfold jsToLower
  split <;> simp_all

theorem toUpperStr_toLowerStr (w : List Char) : toUpperStr (toLowerStr w) = toUpperStr w := by
  simp [toUpperStr, toLowerStr, List.map_map, Function.comp_def, jsToUpper_jsToLower]

theorem any_isDigitCh_toLowerStr (w : List Char) :
    (toLowerStr w).any isDigitCh = w.any isDigitCh := by
  simp [toLowerStr, List.any_map, Function.comp_def, isDigitCh_jsToLower]

/-- C1.  `isFuzzyMatch` returns `true` exactly when the normalized forms are
identical, or the Levenshtein distance `d` between them and the maximum `L` of
their lengths satisfy `L > 6 ∧ d ≤ 2` or `L > 3 ∧ d ≤ 1`. -/
theorem isFuzzyMatch_iff (input target : List Char) (convertRoman : Bool) :
    isFuzzyMatch input target convertRoman = true ↔
      (normalize input convertRoman = normalize target convertRoman ∨
        (6 < max (normalize input convertRoman).length (normalize target convertRoman).length ∧
          levenshtein (normalize input convertRoman) (normalize target convertRoman) ≤ 2) ∨
        (3 < max (normalize input convertRoman).length (normalize target convertRoman).length ∧
          levenshtein (normalize input convertRoman) (normalize target convertRoman) ≤ 1)) := by
  unfold isFuzzyMatch
  dsimp only
  split_ifs with h1 h2 h3 <;> simp_all

/-- C3.  `isTokenMatch` returns `true` exactly when both token lists are
non-empty and one of them contains every token of the other; in particular an
empty list never matches. -/
theorem isTokenMatch_iff (tokensA tokensB : List (List Char)) :
    isTokenMatch tokensA tokensB = true ↔
      (tokensA ≠ [] ∧ tokensB ≠ [] ∧
        ((∀ t ∈ tokensA, t ∈ tokensB) ∨ (∀ t ∈ tokensB, t ∈ tokensA))) := by
  unfold isTokenMatch
  split_ifs with h
  · simp_all [List.length_eq_zero]
    tauto
  · simp_all [List.length_eq_zero, List.all_eq_true]

/-- C10.  Guessing the target's display name exactly always wins: the very
first check of `checkGuessMatch` is `isFuzzyMatch` of the name against itself,
which holds because the two normalized forms are the same term. -/
theorem checkGuessMatch_self (vehicleName : List Char)
    (vehicleAliases : List (List Char)) (convertRoman : Bool) :
    checkGuessMatch vehicleName vehicleName vehicleAliases convertRoman = true := by
  have h : isFuzzyMatch vehicleName vehicleName convertRoman = true := by
    unfold isFuzzyMatch
    simp
  unfold checkGuessMatch
  simp [h]

/-- C4.  Seeded selection is deterministic: identical seed strings produce the
identical sequence of Mulberry32 draws (each a 32-bit numerator `t` of the
draw `t / 2^32 ∈ [0, 1)`), and `fetchMysteryVehicle` over identical candidate
lists selects the identical vehicle. -/
theorem seeded_selection_deterministic (s₁ s₂ : List Char)
    (l₁ l₂ : List LocalVehicle) (hs : s₁ = s₂) (hl : l₁ = l₂) :
    (∀ n, draw s₁ n = draw s₂ n) ∧ (∀ n, draw s₁ n < U32) ∧
      fetchMysteryVehicle s₁ l₁ = fetchMysteryVehicle s₂ l₂ := by
  subst hs
  subst hl
  refine ⟨fun _ => rfl, fun n => ?_, rfl⟩
  unfold draw mulberry32
  exact Nat.mod_lt _ (by norm_num [U32])

/-- Witness for C4 at the seed `"2024-01-01"` and a one-vehicle list. -/
theorem seeded_selection_deterministic_witness :
    draw (chars "2024-01-01") 0 < U32 ∧
      fetchMysteryVehicle (chars "2024-01-01") [⟨chars "cn_cm11", chars "china"⟩] =
        fetchMysteryVehicle (chars "2024-01-01") [⟨chars "cn_cm11", chars "china"⟩] :=
  ⟨(seeded_selection_deterministic (chars "2024-01-01") (chars "2024-01-01")
      [⟨chars "cn_cm11", chars "china"⟩] [⟨chars "cn_cm11", chars "china"⟩] rfl rfl).2.1 0,
   (seeded_selection_deterministic (chars "2024-01-01") (chars "2024-01-01")
      [⟨chars "cn_cm11", chars "china"⟩] [⟨chars "cn_cm11", chars "china"⟩] rfl rfl).2.2⟩

theorem trim_eq_nil_of_all_space {s : List Char} (h : s.all isSpaceJS = true) :
    trim s = [] := by
  have h1 : s.dropWhile isSpaceJS = [] := by
    rw [List.dropWhile_eq_nil_iff]
    exact fun x hx => List.all_eq_true.mp h x hx
  unfold trim
  rw [h1]
  rfl

/-- C7.  Submitting an empty or whitespace-only guess is a no-op rejection:
`checkGuess` returns `rejectedEmpty` (no match evaluation, no win, no loss)
and leaves the attempts counter unchanged. -/
theorem checkGuess_empty_noop (valueToCheck : List Char)
    (attempts maxAttempts : Nat) (vehicleName : List Char)
    (vehicleAliases : List (List Char)) (convertRoman : Bool)
    (h : valueToCheck.all isSpaceJS = true) :
    checkGuess valueToCheck attempts maxAttempts vehicleName vehicleAliases convertRoman =
      (GuessOutcome.rejectedEmpty, attempts) := by
  unfold checkGuess
  rw [trim_eq_nil_of_all_space h]
  rfl

/-- Witness for C7 at the guess `" "` (a single space) with two attempts used. -/
theorem checkGuess_empty_noop_witness :
    checkGuess (chars " ") 2 6 (chars "T-34") [chars "t 34"] false =
      (GuessOutcome.rejectedEmpty, 2) :=
  checkGuess_empty_noop (chars " ") 2 6 (chars "T-34") [chars "t 34"] false (by decide)

/-- Counterexample to C5.  With `convertRoman = true`, `normalize` is not
idempotent: `normalize "i!" true = "i"` (the segment `"i!"` is not a roman
key, the `!` is only stripped afterwards), but a second pass maps the now
bare `"i"` to `"1"`. -/
theorem normalize_not_idempotent_roman :
    normalize (normalize (chars "i!") true) true ≠ normalize (chars "i!") true := by
  decide

/-- C5 (amended).  `normalize` is idempotent when `convertRoman` is `false`:
its output is lowercase alphanumeric text, which a second pass leaves
untouched.  (For `convertRoman = true` idempotence fails, e.g. on `"i!"`.) -/
theorem normalize_idempotent (s : List Char) :
    normalize (normalize s false) false = normalize s false := by
  unfold normalize
  dsimp only
  simp only [Bool.false_eq_true, if_false]
  have hmap : toLowerStr ((toLowerStr s).filter isLowerAlnum) =
      (toLowerStr s).filter isLowerAlnum := by
    unfold toLowerStr
    conv_rhs => rw [← List.map_id ((s.map jsToLower).filter isLowerAlnum)]
    exact List.map_congr_left fun c hc =>
      jsToLower_eq_self_of_isLowerAlnum c (List.of_mem_filter hc)
  rw [hmap]
  exact List.filter_eq_self.mpr fun c hc => List.of_mem_filter hc

/-- C9.  The literal formatter scenarios: `formatName "cn_cm11" "china"`
is `"CM11"`, `formatName "ussr_t_34_85" "ussr"` contains `"T-34-85"`, and in
the word transformation any word containing a digit comes out fully
uppercased. -/
theorem formatName_scenarios :
    formatName (chars "cn_cm11") (chars "china") = chars "CM11" ∧
      containsStr (formatName (chars "ussr_t_34_85") (chars "ussr")) (chars "T-34-85") = true ∧
      ∀ word : List Char, word.any isDigitCh = true → processWord word = toUpperStr word := by
  refine ⟨by decide, by decide, ?_⟩
  intro word h
  have hlow : (toLowerStr word).any isDigitCh = true := (any_isDigitCh_toLowerStr word).trans h
  unfold processWord
  dsimp only
  split_ifs with h1 h2 h3 h4 h5
  · rw [h1] at hlow
    exact absurd hlow (by decide)
  · rw [h2] at hlow
    exact absurd hlow (by decide)
  · rw [h3] at hlow
    exact absurd hlow (by decide)
  · rw [h4] at hlow
    exact absurd hlow (by decide)
  · exact toUpperStr_toLowerStr word
  · rfl

/-- Witness for C9's universally quantified part at the word `"m4"`. -/
theorem formatName_scenarios_witness :
    processWord (chars "m4") = toUpperStr (chars "m4") :=
  formatName_scenarios.2.2 (chars "m4") (by decide)

theorem mem_dedupFirst_iff {a : List Char} :
    ∀ {l : List (List Char)}, a ∈ dedupFirst l ↔ a ∈ l := by
  intro l
  induction l with
  | nil => rfl
  | cons x rest ih =>
    by_cases hax : a = x
    · subst hax
      simp [dedupFirst]
    · simp [dedupFirst, List.mem_filter, hax, ih]

theorem splitOnChar_ne_nil (sep : Char) : ∀ l : List Char, splitOnChar sep l ≠ [] := by
  intro l
  induction l with
  | nil => simp [splitOnChar]
  | cons c cs ih =>
    unfold splitOnChar
    split_ifs
    · simp
    · rcases h : splitOnChar sep cs with _ | ⟨p, ps⟩
      · exact absurd h ih
      · simp [h]

theorem splitOnChar_cons_head (sep c : Char) (cs : List Char) (h : c ≠ sep) :
    ∃ p ps, splitOnChar sep (c :: cs) = (c :: p) :: ps := by
  unfold splitOnChar
  rw [if_neg h]
  rcases hs : splitOnChar sep cs with _ | ⟨p, ps⟩
  · exact absurd hs (splitOnChar_ne_nil sep cs)
  · exact ⟨p, ps, rfl⟩

theorem joinSep_ne_nil (sep : Char) :
    ∀ l : List (List Char), l.flatten ≠ [] → joinSep sep l ≠ [] := by
  intro l
  induction l with
  | nil => simp [joinSep]
  | cons w ws ih =>
    intro hfl
    cases ws with
    | nil => simpa [joinSep] using hfl
    | cons w' ws' =>
      show w ++ sep :: joinSep sep (w' :: ws') ≠ []
      simp

theorem replaceFirstOcc_ne_nil (pat repl : List Char) (s : List Char)
    (hr : repl ≠ []) (hs : s ≠ []) : replaceFirstOcc pat repl s ≠ [] := by
  cases s with
  | nil => exact absurd rfl hs
  | cons c cs =>
    unfold replaceFirstOcc
    split_ifs
    · simp [hr]
    · simp

theorem toLowerStr_ne_nil {l : List Char} (h : l ≠ []) : toLowerStr l ≠ [] := by
  simp [toLowerStr, List.map_eq_nil_iff, h]

theorem headD_splitOnChar_ne_nil (sep : Char) (l : List Char) (hl : l ≠ [])
    (hh : l.head? ≠ some sep) : (splitOnChar sep l).headD [] ≠ [] := by
  cases l with
  | nil => exact absurd rfl hl
  | cons c cs =>
    have hc : c ≠ sep := by simpa using hh
    obtain ⟨p, ps, hsp⟩ := splitOnChar_cons_head sep c cs hc
    rw [hsp]
    simp

theorem mem_ite_nil {c : Prop} [Decidable c] {x : List Char} {l : List (List Char)}
    (h : x ∈ (if c then l else [])) : c ∧ x ∈ l := by
  by_cases hc : c
  · rw [if_pos hc] at h
    exact ⟨hc, h⟩
  · rw [if_neg hc] at h
    exact absurd h (List.not_mem_nil x)

/-- Counterexample to C6.  For the empty display name, the alias collection
contains the empty string (its very first entry is `name.toLowerCase()`), so
"no entry of the returned collection is the empty string" fails. -/
theorem generateAliases_empty_entry :
    ([] : List Char) ∈ generateAliases [] (chars "x") := by
  decide

/-- C6 (amended).  `generateAliases name id` always contains
`name.toLowerCase()`; and no entry is empty provided that `name` does not
start with a space, `name` contains a character that is neither a hyphen nor
whitespace, `id` is non-empty and, when `id` contains an underscore, the
characters after its first underscore are not all underscores. -/
theorem generateAliases_complete_nonempty :
    (∀ name id : List Char, toLowerStr name ∈ generateAliases name id) ∧
    (∀ name id : List Char,
      name.head? ≠ some ' ' →
      (∃ c ∈ name, c ≠ '-' ∧ isSpaceJS c = false) →
      id ≠ [] →
      (1 < (splitOnChar '_' id).length → (splitOnChar '_' id).tail.flatten ≠ []) →
      ∀ a ∈ generateAliases name id, a ≠ []) := by
  constructor
  · intro name id
    rw [generateAliases, mem_dedupFirst_iff]
    unfold aliasCandidates
    simp
  · intro name id h2 h3 h4 h5 a ha
    rw [generateAliases, mem_dedupFirst_iff] at ha
    obtain ⟨c₀, hc₀m, hc₀d, hc₀s⟩ := h3
    have hname : name ≠ [] := List.ne_nil_of_mem hc₀m
    have hlname : toLowerStr name ≠ [] := by
      simp [toLowerStr, List.map_eq_nil_iff, hname]
    unfold aliasCandidates at ha
    dsimp only at ha
    simp only [List.mem_append, List.mem_cons, List.not_mem_nil, or_false] at ha
    rcases ha with ((((rfl | rfl) | hB) | rfl | rfl | rfl) | hD) | hE
    · exact hlname
    · simp [List.map_eq_nil_iff, toLowerStr_ne_nil h4]
    · obtain ⟨hp, hB⟩ := mem_ite_nil hB
      have htail := h5 hp
      rcases List.mem_cons.mp hB with rfl | hB
      · exact fun hcon => joinSep_ne_nil ' ' _ htail (List.map_eq_nil_iff.mp hcon)
      · rcases List.mem_singleton.mp hB with rfl
        exact toLowerStr_ne_nil htail
    · simp [List.map_eq_nil_iff, toLowerStr_ne_nil hname]
    · refine List.ne_nil_of_mem (a := jsToLower c₀) (List.mem_filter.mpr ⟨?_, ?_⟩)
      · exact List.mem_map_of_mem jsToLower hc₀m
      · simpa using jsToLower_ne_dash c₀ hc₀d
    · refine List.ne_nil_of_mem (a := jsToLower c₀) (List.mem_filter.mpr ⟨?_, ?_⟩)
      · exact List.mem_map_of_mem jsToLower hc₀m
      · simp [isSpaceJS_jsToLower, hc₀s]
    · obtain ⟨hn, hD⟩ := mem_ite_nil hD
      rcases List.mem_singleton.mp hD with rfl
      exact toLowerStr_ne_nil (headD_splitOnChar_ne_nil ' ' name hname h2)
    · obtain ⟨hpz, hE⟩ := mem_ite_nil hE
      rcases List.mem_singleton.mp hE with rfl
      exact replaceFirstOcc_ne_nil _ _ _ (by decide) hlname

/-- Witness for C6's conditioned part at `name = "T-34"`, `id = "ussr_t_34"`:
the empty string is not among the aliases. -/
theorem generateAliases_complete_nonempty_witness :
    ([] : List Char) ∉ generateAliases (chars "T-34") (chars "ussr_t_34") :=
  fun h =>
    generateAliases_complete_nonempty.2 (chars "T-34") (chars "ussr_t_34")
      (by decide) ⟨'T', by decide, by decide, by decide⟩ (by decide) (fun _ => by decide)
      [] h rfl

/-! ### The recursive edit distance: defining equations and metric facts -/

theorem edist_nil_left (ys : List Char) : edist [] ys = ys.length := rfl

theorem edist_nil_right (l : List Char) : edist l [] = l.length := by
  induction l with
  | nil => rfl
  | cons x xs ih => simp [edist, edistAux, ih]

theorem edist_cons_cons (x : Char) (xs : List Char) (y : Char) (ys : List Char) :
    edist (x :: xs) (y :: ys) =
      if x = y then edist xs ys
      else 1 + min (edist xs ys) (min (edist (x :: xs) ys) (edist xs (y :: ys))) := rfl

theorem edist_self (l : List Char) : edist l l = 0 := by
  induction l with
  | nil => rfl
  | cons x xs ih => rw [edist_cons_cons, if_pos rfl, ih]

theorem edist_symm : ∀ a b : List Char, edist a b = edist b a := by
  intro a
  induction a with
  | nil => intro b; rw [edist_nil_left, edist_nil_right]
  | cons x xs ihx =>
    intro b
    induction b with
    | nil => rw [edist_nil_left, edist_nil_right]
    | cons y ys ihy =>
      rw [edist_cons_cons, edist_cons_cons]
      by_cases hxy : x = y
      · subst hxy
        rw [if_pos rfl, if_pos rfl]
        exact ihx ys
      · rw [if_neg hxy, if_neg fun h => hxy h.symm]
        rw [ihx ys, ihx (y :: ys), ihy]
        omega

/-- The three head-edit Lipschitz bounds on `edist`, proved together by
strong induction on the combined length. -/
theorem edist_head_lip : ∀ (n : Nat) (t b : List Char), t.length + b.length ≤ n →
    ((∀ c c', edist (c :: t) b ≤ edist (c' :: t) b + 1) ∧
     (∀ c, edist t b ≤ edist (c :: t) b + 1) ∧
     (∀ c, edist (c :: t) b ≤ edist t b + 1)) := by
  intro n
  induction n using Nat.strongRecOn with
  | ind n ih =>
    intro t b hn
    cases b with
    | nil =>
      refine ⟨fun c c' => ?_, fun c => ?_, fun c => ?_⟩ <;>
        simp only [edist_nil_right, List.length_cons] <;> omega
    | cons y ys =>
      have hmeas : t.length + ys.length < n := by
        have := List.length_cons y ys
        omega
      have hmeas' : ys.length + t.length < n := by omega
      -- the two second-argument Lipschitz bounds, mirrored through symmetry
      have P2' : edist t ys ≤ edist t (y :: ys) + 1 := by
        have h := (ih _ hmeas' ys t le_rfl).2.1 y
        rw [edist_symm ys t, edist_symm (y :: ys) t] at h
        exact h
      have P3' : edist t (y :: ys) ≤ edist t ys + 1 := by
        have h := (ih _ hmeas' ys t le_rfl).2.2 y
        rw [edist_symm ys t, edist_symm (y :: ys) t] at h
        exact h
      refine ⟨?_, ?_, ?_⟩
      · intro c c'
        rw [edist_cons_cons, edist_cons_cons]
        by_cases hc : c = y <;> by_cases hc' : c' = y
        · rw [if_pos hc, if_pos hc']
          omega
        · rw [if_pos hc, if_neg hc']
          have h1 : edist t ys ≤ edist (c' :: t) ys + 1 := (ih _ hmeas t ys le_rfl).2.1 c'
          have h2 := P2'
          omega
        · rw [if_neg hc, if_pos hc']
          omega
        · rw [if_neg hc, if_neg hc']
          have h1 : edist (c :: t) ys ≤ edist (c' :: t) ys + 1 := (ih _ hmeas t ys le_rfl).1 c c'
          omega
      · intro c
        rw [edist_cons_cons]
        by_cases hc : c = y
        · rw [if_pos hc]
          exact P3'
        · rw [if_neg hc]
          have h1 : edist t ys ≤ edist (c :: t) ys + 1 := (ih _ hmeas t ys le_rfl).2.1 c
          have h2 := P3'
          omega
      · intro c
        rw [edist_cons_cons]
        by_cases hc : c = y
        · rw [if_pos hc]
          exact P2'
        · rw [if_neg hc]
          omega

/-- A one-step Lipschitz bound is preserved under a common head. -/
theorem edist_cons_le_cons {r r' : List Char}
    (H : ∀ b, edist r b ≤ edist r' b + 1) (p : Char) :
    ∀ b, edist (p :: r) b ≤ edist (p :: r') b + 1 := by
  intro b
  induction b with
  | nil =>
    have h := H []
    rw [edist_nil_right, edist_nil_right] at h
    rw [edist_nil_right, edist_nil_right]
    simp only [List.length_cons]
    omega
  | cons y ys ih =>
    rw [edist_cons_cons, edist_cons_cons]
    by_cases hp : p = y
    · rw [if_pos hp, if_pos hp]
      exact H ys
    · rw [if_neg hp, if_neg hp]
      have h1 := H ys
      have h2 := H (y :: ys)
      omega

/-- A one-step Lipschitz bound is preserved under a common prefix. -/
theorem edist_append_le {r r' : List Char}
    (H : ∀ b, edist r b ≤ edist r' b + 1) :
    ∀ (pre b : List Char), edist (pre ++ r) b ≤ edist (pre ++ r') b + 1 := by
  intro pre
  induction pre with
  | nil => exact H
  | cons p ps ih =>
    intro b
    simpa using edist_cons_le_cons ih p b

/-- One single-character edit changes `edist` to any third string by at most one. -/
theorem edist_step_le {a a' : List Char} (h : EditStep a a') (b : List Char) :
    edist a b ≤ edist a' b + 1 := by
  cases h with
  | insert pre post c =>
    exact edist_append_le
      (fun b' => (edist_head_lip (post.length + b'.length) post b' le_rfl).2.1 c) pre b
  | delete pre post c =>
    exact edist_append_le
      (fun b' => (edist_head_lip (post.length + b'.length) post b' le_rfl).2.2 c) pre b
  | subst pre post c d hcd =>
    exact edist_append_le
      (fun b' => (edist_head_lip (post.length + b'.length) post b' le_rfl).1 c d) pre b

/-- Optimality: `edist` is a lower bound on the length of any edit chain. -/
theorem edist_le_of_editChain : ∀ {n : Nat} {a b : List Char},
    EditChain n a b → edist a b ≤ n := by
  intro n a b h
  induction h with
  | refl l => exact le_of_eq (edist_self l)
  | @step n' a' b' c' hs t ih =>
    have h1 := edist_step_le hs c'
    omega

theorem editStep_cons {l m : List Char} (p : Char) (h : EditStep l m) :
    EditStep (p :: l) (p :: m) := by
  cases h with
  | insert pre post c => exact EditStep.insert (p :: pre) post c
  | delete pre post c => exact EditStep.delete (p :: pre) post c
  | subst pre post c d hcd => exact EditStep.subst (p :: pre) post c d hcd

theorem editChain_cons {n : Nat} {l m : List Char} (p : Char) (h : EditChain n l m) :
    EditChain n (p :: l) (p :: m) := by
  induction h with
  | refl l => exact EditChain.refl (p :: l)
  | step hs _ ih => exact EditChain.step (editStep_cons p hs) ih

theorem editChain_snoc : ∀ {n : Nat} {a b c : List Char},
    EditChain n a b → EditStep b c → EditChain (n + 1) a c := by
  intro n a b c h
  induction h with
  | refl l => exact fun hs => EditChain.step hs (EditChain.refl c)
  | step h' t ih => exact fun hs => EditChain.step h' (ih hs)

theorem editChain_append : ∀ {m n : Nat} {a b c : List Char},
    EditChain m a b → EditChain n b c → EditChain (m + n) a c := by
  intro m n a b c h₁
  induction h₁ with
  | refl l => exact fun h₂ => by simpa using h₂
  | step h' t ih =>
    exact fun h₂ => by simpa [Nat.succ_add] using EditChain.step h' (ih h₂)

theorem editChain_nil_left (l : List Char) : EditChain l.length [] l := by
  induction l with
  | nil => exact EditChain.refl []
  | cons x xs ih =>
    have hs : EditStep xs (x :: xs) := by
      have := EditStep.insert [] xs x
      simpa using this
    simpa using editChain_snoc ih hs

theorem editChain_nil_right (l : List Char) : EditChain l.length l [] := by
  induction l with
  | nil => exact EditChain.refl []
  | cons x xs ih =>
    have hs : EditStep (x :: xs) xs := by
      have := EditStep.delete [] xs x
      simpa using this
    exact EditChain.step hs ih

/-- Achievability: there is an edit chain of length exactly `edist a b`. -/
theorem editChain_edist : ∀ (a b : List Char), EditChain (edist a b) a b := by
  intro a
  induction a with
  | nil =>
    intro b
    rw [edist_nil_left]
    exact editChain_nil_left b
  | cons x xs ihx =>
    intro b
    induction b with
    | nil =>
      rw [edist_nil_right]
      simpa using editChain_nil_right (x :: xs)
    | cons y ys ihy =>
      rw [edist_cons_cons]
      by_cases hxy : x = y
      · rw [if_pos hxy]
        subst hxy
        exact editChain_cons x (ihx ys)
      · rw [if_neg hxy]
        rcases min_cases (edist xs ys) (min (edist (x :: xs) ys) (edist xs (y :: ys))) with
          ⟨hmin, _⟩ | ⟨hmin, _⟩
        · rw [hmin, Nat.add_comm]
          have hs : EditStep (x :: xs) (y :: xs) := by
            have := EditStep.subst [] xs x y hxy
            simpa using this
          exact EditChain.step hs (editChain_cons y (ihx ys))
        · rw [hmin]
          rcases min_cases (edist (x :: xs) ys) (edist xs (y :: ys)) with
            ⟨hmin2, _⟩ | ⟨hmin2, _⟩
          · rw [hmin2, Nat.add_comm]
            have hs : EditStep ys (y :: ys) := by
              have := EditStep.insert [] ys y
              simpa using this
            exact editChain_snoc ihy hs
          · rw [hmin2, Nat.add_comm]
            have hs : EditStep (x :: xs) xs := by
              have := EditStep.delete [] xs x
              simpa using this
            exact EditChain.step hs (ihx (y :: ys))

theorem editStep_reverse {a b : List Char} (h : EditStep a b) :
    EditStep a.reverse b.reverse := by
  cases h with
  | insert pre post c =>
    have h1 : (pre ++ post).reverse = post.reverse ++ pre.reverse := by simp
    have h2 : (pre ++ c :: post).reverse = post.reverse ++ c :: pre.reverse := by simp
    rw [h1, h2]
    exact EditStep.insert post.reverse pre.reverse c
  | delete pre post c =>
    have h1 : (pre ++ post).reverse = post.reverse ++ pre.reverse := by simp
    have h2 : (pre ++ c :: post).reverse = post.reverse ++ c :: pre.reverse := by simp
    rw [h1, h2]
    exact EditStep.delete post.reverse pre.reverse c
  | subst pre post c d hcd =>
    have h2 : (pre ++ c :: post).reverse = post.reverse ++ c :: pre.reverse := by simp
    have h3 : (pre ++ d :: post).reverse = post.reverse ++ d :: pre.reverse := by simp
    rw [h2, h3]
    exact EditStep.subst post.reverse pre.reverse c d hcd

theorem editChain_reverse {n : Nat} {a b : List Char} (h : EditChain n a b) :
    EditChain n a.reverse b.reverse := by
  induction h with
  | refl l => exact EditChain.refl l.reverse
  | step hs t ih => exact EditChain.step (editStep_reverse hs) ih

theorem edist_reverse (a b : List Char) : edist a.reverse b.reverse = edist a b := by
  apply Nat.le_antisymm
  · exact edist_le_of_editChain (editChain_reverse (editChain_edist a b))
  · have h := edist_le_of_editChain (editChain_reverse (editChain_edist a.reverse b.reverse))
    simpa using h

/-- The dynamic-programming matrix agrees with the recursive edit distance on
the reversed prefixes: cell `(i, j)` is the distance between the first `j`
characters of `a` and the first `i` characters of `b`. -/
theorem levMatrix_eq (a b : List Char) :
    ∀ i, i ≤ b.length → ∀ j, j ≤ a.length →
      levMatrix a b i j = edist (a.take j).reverse (b.take i).reverse := by
  intro i
  induction i with
  | zero =>
    intro _ j hj
    simp [levMatrix, edist_nil_right, Nat.min_eq_left hj]
  | succ i ihi =>
    intro hi j
    induction j with
    | zero =>
      intro _
      show levRow a b i (levMatrix a b i) 0 = _
      simp [levRow, edist_nil_left, Nat.min_eq_left hi]
    | succ j ihj =>
      intro hj
      have hi' : i < b.length := hi
      have hj' : j < a.length := hj
      have hta : (a.take (j + 1)).reverse = a[j] :: (a.take j).reverse := by
        rw [List.take_succ, List.getElem?_eq_getElem hj']
        simp
      have htb : (b.take (i + 1)).reverse = b[i] :: (b.take i).reverse := by
        rw [List.take_succ, List.getElem?_eq_getElem hi']
        simp
      have hga : a.getD j ' ' = a[j] := by
        simp [List.getD_eq_getElem?_getD, List.getElem?_eq_getElem hj']
      have hgb : b.getD i ' ' = b[i] := by
        simp [List.getD_eq_getElem?_getD, List.getElem?_eq_getElem hi']
      rw [hta, htb, edist_cons_cons]
      show levRow a b i (levMatrix a b i) (j + 1) = _
      rw [levRow, hga, hgb]
      have hrow : levRow a b i (levMatrix a b i) j = levMatrix a b (i + 1) j := rfl
      by_cases hba : b[i] = a[j]
      · rw [if_pos hba, if_pos hba.symm]
        exact ihi (le_of_lt hi') j (le_of_lt hj')
      · rw [if_neg hba, if_neg fun h => hba h.symm]
        have e1 := ihi (le_of_lt hi') j (le_of_lt hj')
        have e2 := ihj (le_of_lt hj')
        rw [htb] at e2
        have e3 := ihi (le_of_lt hi') (j + 1) hj
        rw [hta] at e3
        rw [hrow, e1, e2, e3]
        omega

theorem levenshtein_eq_edist (a b : List Char) : levenshtein a b = edist a b := by
  have h := levMatrix_eq a b b.length le_rfl a.length le_rfl
  rw [List.take_length, List.take_length] at h
  unfold levenshtein
  rw [h, edist_reverse]

/-- C2.  The source's matrix-based `levenshtein` computes the exact classic
edit distance: `levenshtein a b` is the length of some chain of
single-character insertions, deletions and substitutions transforming `a`
into `b`, and no shorter chain exists. -/
theorem levenshtein_exact_edit_distance (a b : List Char) :
    EditChain (levenshtein a b) a b ∧ ∀ n, EditChain n a b → levenshtein a b ≤ n :=
  ⟨by rw [levenshtein_eq_edist]; exact editChain_edist a b,
   fun n hn => by rw [levenshtein_eq_edist]; exact edist_le_of_editChain hn⟩

/-- Witness for C2's minimality part at `a = ['a']`, `b = ['b']`, `n = 1`. -/
theorem levenshtein_exact_edit_distance_witness :
    levenshtein ['a'] ['b'] ≤ 1 :=
  (levenshtein_exact_edit_distance ['a'] ['b']).2 1
    (EditChain.step (EditStep.subst [] [] 'a' 'b' (by decide)) (EditChain.refl ['b']))

/-- C8.  `levenshtein` satisfies the metric identities: reflexivity gives 0,
it is symmetric, it satisfies the triangle inequality, and its distance from
the empty string is the length. -/
theorem levenshtein_metric (s a b c : List Char) :
    levenshtein s s = 0 ∧ levenshtein a b = levenshtein b a ∧
      levenshtein a c ≤ levenshtein a b + levenshtein b c ∧
      levenshtein [] s = s.length := by
  refine ⟨?_, ?_, ?_, ?_⟩
  · rw [levenshtein_eq_edist]
    exact edist_self s
  · rw [levenshtein_eq_edist, levenshtein_eq_edist]
    exact edist_symm a b
  · rw [levenshtein_eq_edist, levenshtein_eq_edist, levenshtein_eq_edist]
    exact edist_le_of_editChain (editChain_append (editChain_edist a b) (editChain_edist b c))
  · rw [levenshtein_eq_edist, edist_nil_left]

end WTG
